import Mathlib

/-!
Verification of the xdb storage engine against its specification.

The engine (src/database.c, src/query.c, src/utils.c) is shallowly embedded
below: cJSON values become the inductive type JVal, cJSON objects become
ordered association lists, the global mutable state (root store, identifier
index, flush counter, test-mode flag, durable file) becomes the structure DB,
and every public operation becomes a pure function from DB to DB plus its
result.  The pseudo random generator behind utils_gen_uuid and the success of
a disk write are passed in as explicit parameters.
-/

namespace XDB

/-- A JSON value as handled by cJSON: string, number (stored by cJSON as a
double and only ever compared for equality by this engine, modelled here as a
rational), boolean, null, object (ordered field list, duplicate keys
possible) and array. -/
inductive JVal : Type where
  | jstr  : String → JVal
  | jnum  : Rat → JVal
  | jbool : Bool → JVal
  | jnull : JVal
  | jobj  : List (String × JVal) → JVal
  | jarr  : List JVal → JVal

/-- A document: the ordered field list of a cJSON object node. -/
abbrev Doc := List (String × JVal)

/-- Model of cJSON_GetObjectItem on an object node: the first entry with the
given key, none when the key is absent.  Also used for the root store
(collection lookup) and the identifier index, which are cJSON objects too. -/
def getObjectItem {α : Type} : List (String × α) → String → Option α
  | [], _ => none
  | (k, v) :: rest, key => if k = key then some v else getObjectItem rest key

/-- Model of cJSON_HasObjectItem. -/
def hasObjectItem {α : Type} (l : List (String × α)) (key : String) : Bool :=
  (getObjectItem l key).isSome

/-- The type tested comparison at the heart of query_match: strings, numbers
and booleans compare by value, every other combination (type mismatch,
nested object or array, null) falls through to the final else branch and is
a non match. -/
def fieldEq : JVal → JVal → Bool
  | JVal.jstr a, JVal.jstr b => decide (a = b)
  | JVal.jnum a, JVal.jnum b => decide (a = b)
  | JVal.jbool a, JVal.jbool b => decide (a = b)
  | _, _ => false

/-- One iteration of the query_match loop for a query field (k, v): the
document must contain the field and fieldEq must accept the pair. -/
def matchField (d : Doc) (k : String) (v : JVal) : Bool :=
  match getObjectItem d k with
  | none => false
  | some dv => fieldEq v dv

/-- Model of query_match (src/query.c): a NULL query matches everything, a
non NULL query never matches a NULL document, and otherwise every query
field must pass matchField.  List.all short circuits on the first failing
field exactly like the C loop. -/
def query_match (doc : Option Doc) (query : Option Doc) : Bool :=
  match query with
  | none => true
  | some q =>
    match doc with
    | none => false
    | some d => q.all fun p => matchField d p.1 p.2

/-- Specification side rendering of the per field matching rule, following
the wording of the spec: the corresponding field must exist in the document
and have the same runtime type and equal value, the type being string,
number or boolean; everything else is a non match. -/
def specFieldMatch (d : Doc) (k : String) (v : JVal) : Prop :=
  ∃ w, getObjectItem d k = some w ∧
    ((∃ a, v = JVal.jstr a ∧ w = JVal.jstr a) ∨
     (∃ x, v = JVal.jnum x ∧ w = JVal.jnum x) ∨
     (∃ b, v = JVal.jbool b ∧ w = JVal.jbool b))

theorem matchField_iff_spec (d : Doc) (k : String) (v : JVal) :
    matchField d k v = true ↔ specFieldMatch d k v := by
  unfold matchField specFieldMatch
  cases hg : getObjectItem d k with
  | none => simp
  | some dv =>
    simp only [Option.some.injEq]
    constructor
    · intro h
      refine ⟨dv, rfl, ?_⟩
      cases v <;> cases dv <;> simp_all [fieldEq]
    · rintro ⟨w, rfl, hcase⟩
      rcases hcase with ⟨a, rfl, rfl⟩ | ⟨x, rfl, rfl⟩ | ⟨b, rfl, rfl⟩ <;>
        simp [fieldEq]

theorem fieldEq_null_right (v : JVal) : fieldEq v JVal.jnull = false := by
  cases v <;> rfl

theorem fieldEq_null_left (v : JVal) : fieldEq JVal.jnull v = false := by
  cases v <;> rfl

/-- C5: the predicate matcher returns true for every document (present or
absent) when the filter is absent; returns false for every present filter
when the document is absent; and otherwise accepts exactly when every filter
field exists in the document with the same runtime type (string, number or
boolean) and equal value, so that any type mismatch, missing field, or
nested object or array filter value is a non match. -/
theorem query_match_spec :
    (∀ d : Option Doc, query_match d none = true) ∧
    (∀ q : Doc, query_match none (some q) = false) ∧
    (∀ (d : Doc) (q : Doc),
      query_match (some d) (some q) = true ↔ ∀ p ∈ q, specFieldMatch d p.1 p.2) := by
  refine ⟨fun d => rfl, fun q => rfl, fun d q => ?_⟩
  show (q.all fun p => matchField d p.1 p.2) = true ↔ _
  rw [List.all_eq_true]
  constructor
  · intro h p hp
    exact (matchField_iff_spec d p.1 p.2).mp (h p hp)
  · intro h p hp
    exact (matchField_iff_spec d p.1 p.2).mpr (h p hp)

theorem query_match_spec_witness :
    query_match (some [("name", JVal.jstr "X"), ("version", JVal.jnum 1)])
      (some [("name", JVal.jstr "X")]) = true :=
  (query_match_spec.2.2 [("name", JVal.jstr "X"), ("version", JVal.jnum 1)]
      [("name", JVal.jstr "X")]).mpr
    (by
      intro p hp
      simp only [List.mem_singleton] at hp
      subst hp
      exact ⟨JVal.jstr "X", rfl, Or.inl ⟨"X", rfl, rfl⟩⟩)

/-- C10: a filter containing a field whose value is JSON null never matches
any document, even one whose stored value for that field is null, because
the null/null combination falls through every typed comparison branch of
query_match. -/
theorem null_filter_never_matches (d : Doc) (q : Doc) (k : String)
    (h : (k, JVal.jnull) ∈ q) :
    query_match (some d) (some q) = false := by
  show (q.all fun p => matchField d p.1 p.2) = false
  rw [List.all_eq_false]
  refine ⟨(k, JVal.jnull), h, ?_⟩
  unfold matchField
  cases getObjectItem d k with
  | none => simp
  | some dv => simp [fieldEq_null_left]

theorem null_filter_never_matches_witness :
    query_match (some [("a", JVal.jnull)]) (some [("a", JVal.jnull)]) = false :=
  null_filter_never_matches [("a", JVal.jnull)] [("a", JVal.jnull)] "a"
    (List.mem_singleton.mpr rfl)

/-! ## The storage engine state and its operations (src/database.c) -/

/-- The global state of the engine: the root store (a cJSON object mapping
collection name to array of documents), the identifier index (a cJSON object
mapping identifier to a private copy of the document), the content of the
durable file as of the last successful flush, the flush counter g_op_counter
(only ever holds 0..4), the number of snapshots taken so far and the process
wide test mode flag. -/
structure DB where
  root : List (String × List Doc)
  index : List (String × Doc)
  file : List (String × List Doc)
  opCounter : Nat
  snapshots : Nat
  testMode : Bool

/-- Model of _save_internal.  writeOk tells whether the temp file write and
the atomic rename both succeed; on failure nothing changes (the in memory
state was already mutated by the caller, the durable file keeps its previous
content).  On success the durable file now holds the serialized root, and
unless test mode is on the flush counter is bumped, with a snapshot and a
counter reset on every fifth successful flush. -/
def saveInternal (writeOk : Bool) (s : DB) : DB :=
  if writeOk then
    let s1 : DB := { s with file := s.root }
    if s1.testMode then s1
    else if s1.opCounter + 1 ≥ 5 then
      { s1 with opCounter := 0, snapshots := s1.snapshots + 1 }
    else { s1 with opCounter := s1.opCounter + 1 }
  else s

/-- Replace the document array of the first collection entry with the given
name; models the in place mutation of the array node found by
cJSON_GetObjectItem(root, coll_name). -/
def setColl : List (String × List Doc) → String → List Doc → List (String × List Doc)
  | [], _, _ => []
  | (n, ds) :: rest, name, docs =>
    if n = name then (n, docs) :: rest else (n, ds) :: setColl rest name docs

/-- The id ensuring step of db_insert: when the document has no _id field at
all, the generated identifier is appended as a string field (in C this
mutates the caller supplied object in place). -/
def ensureId (d : Doc) (genId : String) : Doc :=
  if hasObjectItem d "_id" then d else d ++ [("_id", JVal.jstr genId)]

/-- Model of db_insert.  genId stands for the string produced by
utils_gen_uuid, writeOk for the success of the disk write.  Returns the new
state, the caller visible document after the in place id assignment, and the
boolean result.  The index gains an appended entry only when the _id field
holds a string (cJSON_AddItemToObject appends even when the key already
exists); the collection is created at the end of the root object when
absent. -/
def db_insert (s : DB) (coll_name : String) (data : Option Doc) (genId : String)
    (writeOk : Bool) : DB × Option Doc × Bool :=
  match data with
  | none => (s, none, false)
  | some d0 =>
    let d := ensureId d0 genId
    let index' :=
      match getObjectItem d "_id" with
      | some (JVal.jstr idv) => s.index ++ [(idv, d)]
      | _ => s.index
    let root' :=
      match getObjectItem s.root coll_name with
      | some docs => setColl s.root coll_name (docs ++ [d])
      | none => s.root ++ [(coll_name, [d])]
    (saveInternal writeOk { s with root := root', index := index' }, some d, true)

/-- The fast path of db_find: when the query has an _id field holding a
string, the identifier index is consulted; a hit is returned at once as a
one element result, a miss falls through to the linear scan.  Note that the
collection argument plays no role here. -/
def fastFind (s : DB) (query : Option Doc) : Option (List Doc) :=
  match query with
  | none => none
  | some q =>
    match getObjectItem q "_id" with
    | some (JVal.jstr idv) =>
      match getObjectItem s.index idv with
      | some found => some [found]
      | none => none
    | _ => none

/-- The scanning loop of db_find: walk the documents in order, stop as soon
as a positive limit has been reached, collect the documents accepted by
query_match.  count mirrors the local counter of matches. -/
def scanDocs (query : Option Doc) (limit : Int) : List Doc → Int → List Doc
  | [], _ => []
  | d :: rest, count =>
    if limit > 0 ∧ count ≥ limit then []
    else if query_match (some d) query then d :: scanDocs query limit rest (count + 1)
    else scanDocs query limit rest count

/-- The slow path of db_find: an ordered linear scan of the named collection
under the predicate matcher, empty when the collection does not exist. -/
def db_find_slow (s : DB) (coll_name : String) (query : Option Doc) (limit : Int) :
    List Doc :=
  match getObjectItem s.root coll_name with
  | some docs => scanDocs query limit docs 0
  | none => []

/-- Model of db_find: serve from the index fast path when it produces a
result, otherwise scan. -/
def db_find (s : DB) (coll_name : String) (query : Option Doc) (limit : Int) :
    List Doc :=
  match fastFind s query with
  | some r => r
  | none => db_find_slow s coll_name query limit

/-- Model of cJSON_ReplaceItemInObject: replace the value of the first entry
with the given key, keeping its position; no change when the key is
absent. -/
def replaceItemInObject (d : Doc) (key : String) (nv : JVal) : Doc :=
  match d with
  | [] => []
  | (k, v) :: rest =>
    if k = key then (k, nv) :: rest else (k, v) :: replaceItemInObject rest key nv

/-- The selective merge loop of db_update: walk the payload fields in order;
a field named _id is skipped, any other field replaces the value already in
the copy or is appended when new. -/
def mergeFields (base : Doc) : Doc → Doc
  | [] => base
  | (k, v) :: rest =>
    if k = "_id" then mergeFields base rest
    else if hasObjectItem base k then mergeFields (replaceItemInObject base k v) rest
    else mergeFields (base ++ [(k, v)]) rest

/-- Split a list around the first element accepted by p: the elements
before, the element itself, the elements after.  Models the scan and detach
loops of db_update and db_delete. -/
def splitFirst {α : Type} (p : α → Bool) : List α → Option (List α × α × List α)
  | [] => none
  | x :: xs =>
    if p x then some ([], x, xs)
    else
      match splitFirst p xs with
      | none => none
      | some (a, y, b) => some (x :: a, y, b)

/-- Model of cJSON_DeleteItemFromObject: remove the first entry with the
given key, no change when the key is absent. -/
def deleteItemFromObject {α : Type} (l : List (String × α)) (key : String) :
    List (String × α) :=
  match splitFirst (fun p => decide (p.1 = key)) l with
  | none => l
  | some (a, _, b) => a ++ b

/-- The identifier check of the update and delete scan loops: the document
has an _id field whose value is the given string. -/
def docHasId (d : Doc) (id : String) : Bool :=
  match getObjectItem d "_id" with
  | some (JVal.jstr s) => decide (s = id)
  | _ => false

/-- Model of db_update: find the first document of the named collection
whose _id equals id, merge the payload into a copy of it, detach the old
node and append the merged copy at the end of the collection, replace the
index entry (delete then append), persist. -/
def db_update (s : DB) (coll_name : String) (id : String) (data : Option Doc)
    (writeOk : Bool) : DB × Bool :=
  match data with
  | none => (s, false)
  | some d =>
    match getObjectItem s.root coll_name with
    | none => (s, false)
    | some docs =>
      match splitFirst (fun x => docHasId x id) docs with
      | none => (s, false)
      | some (pre, ex, post) =>
        let new_doc := mergeFields ex d
        let docs' := (pre ++ post) ++ [new_doc]
        let index' := deleteItemFromObject s.index id ++ [(id, new_doc)]
        (saveInternal writeOk
          { s with root := setColl s.root coll_name docs', index := index' }, true)

/-- Model of db_delete: find the first document of the named collection
whose _id equals id; on a hit detach it, remove the index entry, persist and
return true, otherwise change nothing and return false. -/
def db_delete (s : DB) (coll_name : String) (id : String) (writeOk : Bool) :
    DB × Bool :=
  match getObjectItem s.root coll_name with
  | none => (s, false)
  | some docs =>
    match splitFirst (fun x => docHasId x id) docs with
    | none => (s, false)
    | some (pre, _, post) =>
      (saveInternal writeOk
        { s with root := setColl s.root coll_name (pre ++ post),
                 index := deleteItemFromObject s.index id }, true)

/-- Model of db_drop_all: replace store and index by empty objects, persist. -/
def db_drop_all (s : DB) (writeOk : Bool) : DB :=
  saveInternal writeOk { s with root := [], index := [] }

/-- Model of db_count: the length of the named collection, 0 when absent. -/
def db_count (s : DB) (coll_name : String) : Nat :=
  match getObjectItem s.root coll_name with
  | some docs => docs.length
  | none => 0

/-- Model of db_upsert: update first when an id is given, fall back to
insert. -/
def db_upsert (s : DB) (coll_name : String) (id : Option String) (data : Option Doc)
    (genId : String) (writeOk : Bool) : DB × Bool :=
  match id with
  | some i =>
    let r := db_update s coll_name i data writeOk
    if r.2 then r else
      let r2 := db_insert s coll_name data genId writeOk
      (r2.1, r2.2.2)
  | none =>
    let r2 := db_insert s coll_name data genId writeOk
    (r2.1, r2.2.2)

/-- The alphabet of utils_gen_uuid (src/utils.c). -/
def CHARSET : String := "abcdefghijklmnopqrstuvwxyzABCDEFGHIJKLMNOPQRSTUVWXYZ0123456789"

/-- Model of utils_gen_uuid: sixteen characters drawn from CHARSET, the
stream of rand() values passed in explicitly; each draw is reduced modulo
sizeof(CHARSET) - 1 = 62. -/
def utils_gen_uuid (randoms : Nat → Nat) : String :=
  String.mk ((List.range 16).map fun i => CHARSET.toList.getD (randoms i % 62) 'a')

/-! ## Supporting lemmas about the association list primitives -/

theorem getObjectItem_cons {α : Type} (k : String) (v : α) (rest : List (String × α))
    (key : String) :
    getObjectItem ((k, v) :: rest) key =
      if k = key then some v else getObjectItem rest key := rfl

theorem getObjectItem_append_of_some {α : Type} {a : List (String × α)} {k : String}
    {v : α} (b : List (String × α)) (h : getObjectItem a k = some v) :
    getObjectItem (a ++ b) k = some v := by
  induction a with
  | nil => simp [getObjectItem] at h
  | cons hd tl ih =>
    obtain ⟨k1, v1⟩ := hd
    rw [getObjectItem_cons] at h
    by_cases hk : k1 = k
    · simp [hk] at h
      simp [getObjectItem_cons, hk, h]
    · simp [hk] at h
      simp [getObjectItem_cons, hk, ih h]

theorem getObjectItem_append_of_none {α : Type} {a : List (String × α)} {k : String}
    (b : List (String × α)) (h : getObjectItem a k = none) :
    getObjectItem (a ++ b) k = getObjectItem b k := by
  induction a with
  | nil => rfl
  | cons hd tl ih =>
    obtain ⟨k1, v1⟩ := hd
    rw [getObjectItem_cons] at h
    by_cases hk : k1 = k
    · simp [hk] at h
    · simp [hk] at h
      simp [getObjectItem_cons, hk, ih h]

theorem getObjectItem_eq_none_of_not_mem {α : Type} {l : List (String × α)} {k : String}
    (h : k ∉ l.map Prod.fst) : getObjectItem l k = none := by
  induction l with
  | nil => rfl
  | cons hd tl ih =>
    obtain ⟨k1, v1⟩ := hd
    simp only [List.map_cons, List.mem_cons] at h
    push_neg at h
    rw [getObjectItem_cons, if_neg (fun hh => h.1 hh.symm), ih h.2]

/-- Every key/value pair selected by entriesFor carries the requested key. -/
def entriesFor {α : Type} (l : List (String × α)) (key : String) : List (String × α) :=
  l.filter fun p => decide (p.1 = key)

theorem entriesFor_append {α : Type} (a b : List (String × α)) (key : String) :
    entriesFor (a ++ b) key = entriesFor a key ++ entriesFor b key :=
  List.filter_append ..

theorem entriesFor_cons {α : Type} (k : String) (v : α) (rest : List (String × α))
    (key : String) :
    entriesFor ((k, v) :: rest) key =
      if k = key then (k, v) :: entriesFor rest key else entriesFor rest key := by
  unfold entriesFor
  by_cases h : k = key <;> simp [List.filter_cons, h]

theorem getObjectItem_eq_head_entriesFor {α : Type} (l : List (String × α)) (key : String) :
    getObjectItem l key = (entriesFor l key).head?.map Prod.snd := by
  induction l with
  | nil => rfl
  | cons hd tl ih =>
    obtain ⟨k1, v1⟩ := hd
    rw [getObjectItem_cons, entriesFor_cons]
    by_cases h : k1 = key <;> simp [h, ih]

theorem getObjectItem_none_iff_entriesFor_nil {α : Type} (l : List (String × α))
    (key : String) : getObjectItem l key = none ↔ entriesFor l key = [] := by
  rw [getObjectItem_eq_head_entriesFor]
  cases entriesFor l key <;> simp

theorem mem_of_mem_entriesFor {α : Type} {l : List (String × α)} {key : String}
    {p : String × α} (h : p ∈ entriesFor l key) : p ∈ l :=
  List.mem_of_mem_filter h

theorem key_of_mem_entriesFor {α : Type} {l : List (String × α)} {key : String}
    {p : String × α} (h : p ∈ entriesFor l key) : p.1 = key := by
  have := List.of_mem_filter h
  simpa using this

/-! ## splitFirst and deleteItemFromObject -/

theorem splitFirst_nil {α : Type} (p : α → Bool) : splitFirst p [] = none := rfl

theorem splitFirst_cons {α : Type} (p : α → Bool) (x : α) (xs : List α) :
    splitFirst p (x :: xs) =
      if p x then some ([], x, xs)
      else
        match splitFirst p xs with
        | none => none
        | some (a, y, b) => some (x :: a, y, b) := rfl

theorem splitFirst_eq_some {α : Type} {p : α → Bool} {l a : List α} {x : α} {b : List α}
    (h : splitFirst p l = some (a, x, b)) :
    l = a ++ x :: b ∧ p x = true ∧ ∀ y ∈ a, p y = false := by
  induction l generalizing a with
  | nil => simp [splitFirst_nil] at h
  | cons hd tl ih =>
    rw [splitFirst_cons] at h
    by_cases hp : p hd
    · rw [if_pos hp] at h
      obtain ⟨rfl, rfl, rfl⟩ : ([] : List α) = a ∧ hd = x ∧ tl = b := by
        simpa using h
      exact ⟨rfl, hp, by simp⟩
    · rw [if_neg hp] at h
      cases hs : splitFirst p tl with
      | none => rw [hs] at h; simp at h
      | some t =>
        obtain ⟨a', y, b'⟩ := t
        rw [hs] at h
        obtain ⟨rfl, rfl, rfl⟩ : hd :: a' = a ∧ y = x ∧ b' = b := by
          simpa using h
        obtain ⟨rfl, hy, ha⟩ := ih hs
        refine ⟨rfl, hy, ?_⟩
        intro z hz
        rcases List.mem_cons.mp hz with rfl | hz
        · exact Bool.of_not_eq_true hp
        · exact ha z hz

theorem splitFirst_eq_none {α : Type} {p : α → Bool} {l : List α}
    (h : splitFirst p l = none) : ∀ y ∈ l, p y = false := by
  induction l with
  | nil => simp
  | cons hd tl ih =>
    rw [splitFirst_cons] at h
    by_cases hp : p hd
    · rw [if_pos hp] at h; simp at h
    · rw [if_neg hp] at h
      intro y hy
      rcases List.mem_cons.mp hy with rfl | hy
      · exact Bool.of_not_eq_true hp
      · cases hs : splitFirst p tl with
        | none => exact ih hs y hy
        | some t => obtain ⟨a', y', b'⟩ := t; rw [hs] at h; simp at h

theorem deleteItemFromObject_cons {α : Type} (k1 : String) (v1 : α)
    (rest : List (String × α)) (key : String) :
    deleteItemFromObject ((k1, v1) :: rest) key =
      if k1 = key then rest else (k1, v1) :: deleteItemFromObject rest key := by
  unfold deleteItemFromObject
  rw [splitFirst_cons]
  by_cases h : k1 = key
  · simp [h]
  · rw [if_neg (by simp [h]), if_neg h]
    cases hs : splitFirst (fun p => decide (p.1 = key)) rest with
    | none => simp
    | some t => obtain ⟨a, y, b⟩ := t; simp

theorem entriesFor_deleteItemFromObject_self {α : Type} (l : List (String × α))
    (key : String) :
    entriesFor (deleteItemFromObject l key) key = (entriesFor l key).tail := by
  induction l with
  | nil => rfl
  | cons hd tl ih =>
    obtain ⟨k1, v1⟩ := hd
    rw [deleteItemFromObject_cons, entriesFor_cons]
    by_cases h : k1 = key
    · simp [h]
    · rw [if_neg h, if_neg h, entriesFor_cons, if_neg h, ih]

theorem entriesFor_deleteItemFromObject_other {α : Type} (l : List (String × α))
    {key key0 : String} (h : key0 ≠ key) :
    entriesFor (deleteItemFromObject l key) key0 = entriesFor l key0 := by
  induction l with
  | nil => rfl
  | cons hd tl ih =>
    obtain ⟨k1, v1⟩ := hd
    rw [deleteItemFromObject_cons, entriesFor_cons]
    by_cases hk : k1 = key
    · rw [if_pos hk, if_neg (by rw [hk]; exact fun e => h e.symm)]
    · rw [if_neg hk, entriesFor_cons, ih]

theorem mem_deleteItemFromObject {α : Type} {l : List (String × α)} {key : String}
    {p : String × α} (h : p ∈ deleteItemFromObject l key) : p ∈ l := by
  induction l with
  | nil => simp [deleteItemFromObject, splitFirst_nil] at h
  | cons hd tl ih =>
    obtain ⟨k1, v1⟩ := hd
    rw [deleteItemFromObject_cons] at h
    by_cases hk : k1 = key
    · rw [if_pos hk] at h
      exact List.mem_cons_of_mem _ h
    · rw [if_neg hk] at h
      rcases List.mem_cons.mp h with rfl | h
      · exact List.mem_cons_self _ _
      · exact List.mem_cons_of_mem _ (ih h)

/-! ## saveInternal projections -/

theorem saveInternal_root (w : Bool) (s : DB) : (saveInternal w s).root = s.root := by
  cases w with
  | false => rfl
  | true =>
    show (if s.testMode then _ else _ : DB).root = s.root
    by_cases h : s.testMode
    · rw [if_pos h]
    · rw [if_neg h]
      by_cases h5 : s.opCounter + 1 ≥ 5
      · rw [if_pos h5]
      · rw [if_neg h5]

theorem saveInternal_index (w : Bool) (s : DB) : (saveInternal w s).index = s.index := by
  cases w with
  | false => rfl
  | true =>
    show (if s.testMode then _ else _ : DB).index = s.index
    by_cases h : s.testMode
    · rw [if_pos h]
    · rw [if_neg h]
      by_cases h5 : s.opCounter + 1 ≥ 5
      · rw [if_pos h5]
      · rw [if_neg h5]

theorem saveInternal_file_true (s : DB) : (saveInternal true s).file = s.root := by
  show (if s.testMode then _ else _ : DB).file = s.root
  by_cases h : s.testMode
  · rw [if_pos h]
  · rw [if_neg h]
    by_cases h5 : s.opCounter + 1 ≥ 5
    · rw [if_pos h5]
    · rw [if_neg h5]

theorem saveInternal_false (s : DB) : saveInternal false s = s := rfl

theorem saveInternal_testMode (w : Bool) (s : DB) :
    (saveInternal w s).testMode = s.testMode := by
  cases w with
  | false => rfl
  | true =>
    show (if s.testMode then _ else _ : DB).testMode = s.testMode
    by_cases h : s.testMode
    · rw [if_pos h]
    · rw [if_neg h]
      by_cases h5 : s.opCounter + 1 ≥ 5
      · rw [if_pos h5]
      · rw [if_neg h5]

/-! ## Document identifiers -/

/-- The identifier of a document: the value of its first _id field when that
value is a string. -/
def docId (d : Doc) : Option String :=
  match getObjectItem d "_id" with
  | some (JVal.jstr s) => some s
  | _ => none

theorem docId_some_iff (d : Doc) (i : String) :
    docId d = some i ↔ getObjectItem d "_id" = some (JVal.jstr i) := by
  unfold docId
  cases h : getObjectItem d "_id" with
  | none => simp
  | some v => cases v <;> simp

theorem docHasId_iff (d : Doc) (i : String) :
    docHasId d i = true ↔ docId d = some i := by
  unfold docHasId docId
  cases h : getObjectItem d "_id" with
  | none => simp
  | some v => cases v <;> simp

/-! ## Lemmas about the selective merge -/

theorem getObjectItem_replaceItemInObject_self {d : Doc} {k : String} (nv : JVal)
    (h : hasObjectItem d k = true) :
    getObjectItem (replaceItemInObject d k nv) k = some nv := by
  induction d with
  | nil => simp [hasObjectItem, getObjectItem] at h
  | cons hd tl ih =>
    obtain ⟨k1, v1⟩ := hd
    unfold replaceItemInObject
    by_cases hk : k1 = k
    · rw [if_pos hk, getObjectItem_cons, if_pos hk]
    · rw [if_neg hk, getObjectItem_cons, if_neg hk]
      apply ih
      unfold hasObjectItem at h ⊢
      rw [getObjectItem_cons, if_neg hk] at h
      exact h

theorem getObjectItem_replaceItemInObject_other {d : Doc} {k k0 : String} (nv : JVal)
    (h : k0 ≠ k) :
    getObjectItem (replaceItemInObject d k nv) k0 = getObjectItem d k0 := by
  induction d with
  | nil => rfl
  | cons hd tl ih =>
    obtain ⟨k1, v1⟩ := hd
    unfold replaceItemInObject
    by_cases hk : k1 = k
    · rw [if_pos hk, getObjectItem_cons, getObjectItem_cons,
        if_neg (by rw [hk]; exact fun e => h e.symm),
        if_neg (by rw [hk]; exact fun e => h e.symm)]
    · rw [if_neg hk, getObjectItem_cons, getObjectItem_cons]
      by_cases hk0 : k1 = k0
      · rw [if_pos hk0, if_pos hk0]
      · rw [if_neg hk0, if_neg hk0, ih]

theorem mergeFields_nil (b : Doc) : mergeFields b [] = b := rfl

theorem mergeFields_cons (b : Doc) (k : String) (v : JVal) (rest : Doc) :
    mergeFields b ((k, v) :: rest) =
      if k = "_id" then mergeFields b rest
      else if hasObjectItem b k then mergeFields (replaceItemInObject b k v) rest
      else mergeFields (b ++ [(k, v)]) rest := rfl

/-- Fields that the payload does not mention (and the _id field always) keep
the value they had in the base document. -/
theorem mergeFields_lookup_preserved (l : Doc) {k : String} (b : Doc)
    (hk : k = "_id" ∨ getObjectItem l k = none) :
    getObjectItem (mergeFields b l) k = getObjectItem b k := by
  induction l generalizing b with
  | nil => rfl
  | cons hd tl ih =>
    obtain ⟨k1, v1⟩ := hd
    have hk1 : k1 ≠ k ∨ k = "_id" := by
      rcases hk with hk | hk
      · exact Or.inr hk
      · rw [getObjectItem_cons] at hk
        by_cases h : k1 = k
        · rw [if_pos h] at hk; exact absurd hk (by simp)
        · exact Or.inl h
    have htl : k = "_id" ∨ getObjectItem tl k = none := by
      rcases hk with hk | hk
      · exact Or.inl hk
      · rw [getObjectItem_cons] at hk
        by_cases h : k1 = k
        · rw [if_pos h] at hk; exact absurd hk (by simp)
        · rw [if_neg h] at hk; exact Or.inr hk
    rw [mergeFields_cons]
    by_cases hid : k1 = "_id"
    · rw [if_pos hid]
      exact ih b htl
    · rw [if_neg hid]
      have hne : k1 ≠ k := by
        rcases hk1 with h | h
        · exact h
        · rw [h]; exact hid
      by_cases hb : hasObjectItem b k1
      · rw [if_pos hb, ih _ htl,
          getObjectItem_replaceItemInObject_other v1 (fun e => hne e.symm)]
      · rw [if_neg hb, ih _ htl]
        cases hbk : getObjectItem b k with
        | some v => exact getObjectItem_append_of_some _ hbk
        | none =>
          rw [getObjectItem_append_of_none _ hbk, getObjectItem_cons,
            if_neg hne]
          rfl

/-- Fields mentioned by the payload (except _id) take the payload value,
provided the payload does not name the same field twice. -/
theorem mergeFields_lookup_payload (l : Doc) {k : String} {v : JVal} (b : Doc)
    (hk : k ≠ "_id") (hnodup : (l.map Prod.fst).Nodup)
    (hv : getObjectItem l k = some v) :
    getObjectItem (mergeFields b l) k = some v := by
  induction l generalizing b with
  | nil => simp [getObjectItem] at hv
  | cons hd tl ih =>
    obtain ⟨k1, v1⟩ := hd
    simp only [List.map_cons, List.nodup_cons] at hnodup
    rw [getObjectItem_cons] at hv
    rw [mergeFields_cons]
    by_cases h : k1 = k
    · rw [if_pos h] at hv
      have hv1 : v1 = v := by simpa using hv
      subst hv1
      subst h
      rw [if_neg hk]
      have htl : getObjectItem tl k1 = none :=
        getObjectItem_eq_none_of_not_mem hnodup.1
      by_cases hb : hasObjectItem b k1
      · rw [if_pos hb, mergeFields_lookup_preserved tl _ (Or.inr htl),
          getObjectItem_replaceItemInObject_self v1 hb]
      · rw [if_neg hb, mergeFields_lookup_preserved tl _ (Or.inr htl),
          getObjectItem_append_of_none _ ?_, getObjectItem_cons, if_pos rfl]
        unfold hasObjectItem at hb
        cases hx : getObjectItem b k1 with
        | none => rfl
        | some w => rw [hx] at hb; simp at hb
    · rw [if_neg h] at hv
      by_cases hid : k1 = "_id"
      · rw [if_pos hid]
        exact ih _ hnodup.2 hv
      · rw [if_neg hid]
        by_cases hb : hasObjectItem b k1
        · rw [if_pos hb]
          exact ih _ hnodup.2 hv
        · rw [if_neg hb]
          exact ih _ hnodup.2 hv

theorem docId_mergeFields (b : Doc) (l : Doc) : docId (mergeFields b l) = docId b := by
  unfold docId
  rw [mergeFields_lookup_preserved l b (Or.inl rfl)]

/-! ## The store as a bag of documents, and the index invariant -/

/-- All documents of the store, every collection walked in order. -/
def allDocs : List (String × List Doc) → List Doc
  | [] => []
  | (_, ds) :: rest => ds ++ allDocs rest

theorem allDocs_append (r1 r2 : List (String × List Doc)) :
    allDocs (r1 ++ r2) = allDocs r1 ++ allDocs r2 := by
  induction r1 with
  | nil => rfl
  | cons hd tl ih =>
    obtain ⟨n, ds⟩ := hd
    simp [allDocs, ih]

theorem perm_append_swap_left {α : Type} (a b c : List α) :
    List.Perm (a ++ (b ++ c)) (b ++ (a ++ c)) := by
  rw [← List.append_assoc, ← List.append_assoc]
  exact List.Perm.append_right c List.perm_append_comm

/-- Replacing the array of one collection touches exactly that part of the
document bag: there is a fixed rest l such that the bag is always the new
array plus l. -/
theorem allDocs_setColl (root : List (String × List Doc)) (c : String) (ds : List Doc)
    (h : getObjectItem root c = some ds) :
    ∃ l, List.Perm (allDocs root) (ds ++ l) ∧
      ∀ ds', List.Perm (allDocs (setColl root c ds')) (ds' ++ l) := by
  induction root with
  | nil => simp [getObjectItem] at h
  | cons hd tl ih =>
    obtain ⟨n, ds0⟩ := hd
    rw [getObjectItem_cons] at h
    by_cases hn : n = c
    · rw [if_pos hn] at h
      have hds : ds0 = ds := by simpa using h
      subst hds
      refine ⟨allDocs tl, List.Perm.refl _, fun ds' => ?_⟩
      show List.Perm (allDocs (if n = c then (n, ds') :: tl else _)) _
      rw [if_pos hn]
      exact List.Perm.refl _
    · rw [if_neg hn] at h
      obtain ⟨l', hl1, hl2⟩ := ih h
      refine ⟨ds0 ++ l', ?_, fun ds' => ?_⟩
      · show List.Perm (ds0 ++ allDocs tl) _
        exact (List.Perm.append_left ds0 hl1).trans (perm_append_swap_left ds0 ds l')
      · show List.Perm (allDocs (if n = c then (n, ds') :: tl else (n, ds0) :: setColl tl c ds')) _
        rw [if_neg hn]
        show List.Perm (ds0 ++ allDocs (setColl tl c ds')) _
        exact (List.Perm.append_left ds0 (hl2 ds')).trans (perm_append_swap_left ds0 ds' l')

/-- The documents of the store carrying the given identifier. -/
def docsWithId (root : List (String × List Doc)) (id : String) : List Doc :=
  (allDocs root).filter fun d => docHasId d id

/-- The Identifier Index invariant of the spec: every document of every
collection has a string identifier with exactly one index entry under it,
whose content equals the document, and every index entry points back to
exactly one live document with equal content (identifiers are globally
unique across the store). -/
def storeIndexInv (root : List (String × List Doc)) (index : List (String × Doc)) :
    Prop :=
  (∀ d ∈ allDocs root, ∃ id, docId d = some id ∧ entriesFor index id = [(id, d)]) ∧
  (∀ p ∈ index, docsWithId root p.1 = [p.2])

def dbInv (s : DB) : Prop := storeIndexInv s.root s.index

theorem dbInv_saveInternal (w : Bool) (s : DB) : dbInv (saveInternal w s) ↔ dbInv s := by
  unfold dbInv
  rw [saveInternal_root, saveInternal_index]

theorem eq_singleton_of_perm {α : Type} {A B : List α} {x : α} (p : List.Perm A B)
    (h : A = [x]) : B = [x] :=
  List.perm_singleton.mp (h ▸ p.symm)

theorem docHasId_false_of_ne {d : Doc} {i j : String} (hd : docId d = some j)
    (h : j ≠ i) : docHasId d i = false := by
  rw [Bool.eq_false_iff]
  intro hc
  exact h (Option.some.injEq .. ▸ (hd ▸ (docHasId_iff d i).mp hc :
    (some j : Option String) = some i))

/-- Preservation of the index invariant by an insertion of a document with a
fresh string identifier. -/
theorem storeIndexInv_insert {root' : List (String × List Doc)} {s : DB} {d1 : Doc}
    {idv : String}
    (hinv : storeIndexInv s.root s.index)
    (hid : docId d1 = some idv)
    (hfresh : getObjectItem s.index idv = none)
    (hperm : List.Perm (allDocs root') (d1 :: allDocs s.root)) :
    storeIndexInv root' (s.index ++ [(idv, d1)]) := by
  obtain ⟨h1, h2⟩ := hinv
  have hfreshE : entriesFor s.index idv = [] :=
    (getObjectItem_none_iff_entriesFor_nil _ _).mp hfresh
  have hsingle : entriesFor [(idv, d1)] idv = [(idv, d1)] := by
    rw [entriesFor_cons, if_pos rfl]; rfl
  constructor
  · intro x hx
    rcases List.mem_cons.mp (hperm.mem_iff.mp hx) with rfl | hx'
    · exact ⟨idv, hid, by rw [entriesFor_append, hfreshE, List.nil_append, hsingle]⟩
    · obtain ⟨id0, hid0, hent⟩ := h1 x hx'
      have hne : id0 ≠ idv := by
        intro e
        rw [e, hfreshE] at hent
        exact absurd hent.symm (by simp)
      refine ⟨id0, hid0, ?_⟩
      rw [entriesFor_append, hent, entriesFor_cons, if_neg (fun e => hne e.symm)]
      rfl
  · intro p hp
    rcases List.mem_append.mp hp with hp | hp
    · have hres := h2 p hp
      have hne : p.1 ≠ idv := by
        intro e
        have hmem : p ∈ entriesFor s.index idv :=
          List.mem_filter.mpr ⟨hp, by simp [e]⟩
        rw [hfreshE] at hmem
        exact absurd hmem (List.not_mem_nil p)
      have hd1 : docHasId d1 p.1 = false :=
        docHasId_false_of_ne hid (fun e => hne e.symm)
      have hpermF := hperm.filter (fun x => docHasId x p.1)
      rw [List.filter_cons, hd1] at hpermF
      simp only [Bool.false_eq_true, if_false] at hpermF
      exact eq_singleton_of_perm hpermF.symm hres
    · have hp' : p = (idv, d1) := by simpa using hp
      subst hp'
      have hnone : docsWithId s.root idv = [] := by
        rw [docsWithId, List.filter_eq_nil_iff]
        intro x hx hc
        obtain ⟨id0, hid0, hent⟩ := h1 x hx
        have : id0 = idv := by
          have hx' := (docHasId_iff x idv).mp hc
          rw [hid0] at hx'
          exact Option.some.inj hx'
        rw [this, hfreshE] at hent
        exact absurd hent.symm (by simp)
      have hd1 : docHasId d1 idv = true := (docHasId_iff d1 idv).mpr hid
      have hpermF := hperm.filter (fun x => docHasId x idv)
      rw [List.filter_cons, hd1, if_pos rfl] at hpermF
      have : List.Perm (docsWithId root' idv) (d1 :: docsWithId s.root idv) := hpermF
      rw [hnone] at this
      exact List.perm_singleton.mp this

/-- Preservation of the index invariant by an update of the document with
the given identifier: the document is replaced by a copy with the same
identifier, its index entry is removed and a fresh one appended. -/
theorem storeIndexInv_update {root' : List (String × List Doc)} {s : DB}
    {ex new : Doc} {id : String} {mid : List Doc}
    (hinv : storeIndexInv s.root s.index)
    (hex : docId ex = some id)
    (hnew : docId new = some id)
    (hpermOld : List.Perm (allDocs s.root) (ex :: mid))
    (hpermNew : List.Perm (allDocs root') (new :: mid)) :
    storeIndexInv root' (deleteItemFromObject s.index id ++ [(id, new)]) := by
  obtain ⟨h1, h2⟩ := hinv
  have hxmem : ex ∈ allDocs s.root :=
    hpermOld.mem_iff.mpr (List.mem_cons_self ..)
  obtain ⟨id0, hid0, hentEx⟩ := h1 ex hxmem
  have hid0' : id0 = id := by
    rw [hex] at hid0
    exact (Option.some.inj hid0).symm
  subst hid0'
  have hmemIdx : (id0, ex) ∈ s.index := by
    have hmem : (id0, ex) ∈ entriesFor s.index id0 := by
      rw [hentEx]
      exact List.mem_singleton_self _
    exact mem_of_mem_entriesFor hmem
  have hdocs : docsWithId s.root id0 = [ex] := h2 (id0, ex) hmemIdx
  have hexid : docHasId ex id0 = true := (docHasId_iff ..).mpr hex
  have hmidnil : List.filter (fun x => docHasId x id0) mid = [] := by
    have hf := hpermOld.filter (fun x => docHasId x id0)
    rw [List.filter_cons, hexid, if_pos rfl] at hf
    have hf' : List.Perm (ex :: List.filter (fun x => docHasId x id0) mid) [ex] := by
      rw [← hdocs]
      exact hf.symm
    rw [show ([ex] : List Doc) = ex :: [] from rfl] at hf'
    exact List.perm_nil.mp hf'.cons_inv
  have hdelSelf : entriesFor (deleteItemFromObject s.index id0) id0 = [] := by
    rw [entriesFor_deleteItemFromObject_self, hentEx]
    rfl
  have hsingle : entriesFor [(id0, new)] id0 = [(id0, new)] := by
    rw [entriesFor_cons, if_pos rfl]; rfl
  have hmid_noid : ∀ x ∈ mid, docHasId x id0 = false := by
    intro x hx
    exact Bool.of_not_eq_true (List.filter_eq_nil_iff.mp hmidnil x hx)
  constructor
  · intro x hx
    rcases List.mem_cons.mp (hpermNew.mem_iff.mp hx) with rfl | hx'
    · refine ⟨id0, hnew, ?_⟩
      rw [entriesFor_append, hdelSelf, List.nil_append, hsingle]
    · have hxold : x ∈ allDocs s.root :=
        hpermOld.mem_iff.mpr (List.mem_cons_of_mem _ hx')
      obtain ⟨idx, hidx, hentx⟩ := h1 x hxold
      have hne : idx ≠ id0 := by
        intro e
        subst e
        have := hmid_noid x hx'
        rw [(docHasId_iff ..).mpr hidx] at this
        exact absurd this (by simp)
      refine ⟨idx, hidx, ?_⟩
      rw [entriesFor_append, entriesFor_deleteItemFromObject_other _ hne, hentx,
        entriesFor_cons, if_neg (fun e => hne e.symm)]
      rfl
  · intro p hp
    rcases List.mem_append.mp hp with hp | hp
    · have hpidx : p ∈ s.index := mem_deleteItemFromObject hp
      have hne : p.1 ≠ id0 := by
        intro e
        have hmem : p ∈ entriesFor (deleteItemFromObject s.index id0) id0 :=
          List.mem_filter.mpr ⟨hp, by simp [e]⟩
        rw [hdelSelf] at hmem
        exact absurd hmem (List.not_mem_nil p)
      have hres := h2 p hpidx
      have hfNew := hpermNew.filter (fun x => docHasId x p.1)
      have hfOld := hpermOld.filter (fun x => docHasId x p.1)
      rw [List.filter_cons, docHasId_false_of_ne hnew (fun e => hne e.symm)] at hfNew
      rw [List.filter_cons, docHasId_false_of_ne hex (fun e => hne e.symm)] at hfOld
      simp only [Bool.false_eq_true, if_false] at hfNew hfOld
      exact eq_singleton_of_perm (hfOld.trans hfNew.symm) hres
    · have hp' : p = (id0, new) := by simpa using hp
      subst hp'
      have hf := hpermNew.filter (fun x => docHasId x id0)
      rw [List.filter_cons, (docHasId_iff ..).mpr hnew, if_pos rfl, hmidnil] at hf
      exact List.perm_singleton.mp hf

/-- Preservation of the index invariant by a deletion of the document with
the given identifier. -/
theorem storeIndexInv_delete {root' : List (String × List Doc)} {s : DB}
    {ex : Doc} {id : String} {mid : List Doc}
    (hinv : storeIndexInv s.root s.index)
    (hex : docId ex = some id)
    (hpermOld : List.Perm (allDocs s.root) (ex :: mid))
    (hpermNew : List.Perm (allDocs root') mid) :
    storeIndexInv root' (deleteItemFromObject s.index id) := by
  obtain ⟨h1, h2⟩ := hinv
  have hxmem : ex ∈ allDocs s.root :=
    hpermOld.mem_iff.mpr (List.mem_cons_self ..)
  obtain ⟨id0, hid0, hentEx⟩ := h1 ex hxmem
  have hid0' : id0 = id := by
    rw [hex] at hid0
    exact (Option.some.inj hid0).symm
  subst hid0'
  have hmemIdx : (id0, ex) ∈ s.index := by
    have hmem : (id0, ex) ∈ entriesFor s.index id0 := by
      rw [hentEx]
      exact List.mem_singleton_self _
    exact mem_of_mem_entriesFor hmem
  have hdocs : docsWithId s.root id0 = [ex] := h2 (id0, ex) hmemIdx
  have hexid : docHasId ex id0 = true := (docHasId_iff ..).mpr hex
  have hmidnil : List.filter (fun x => docHasId x id0) mid = [] := by
    have hf := hpermOld.filter (fun x => docHasId x id0)
    rw [List.filter_cons, hexid, if_pos rfl] at hf
    have hf' : List.Perm (ex :: List.filter (fun x => docHasId x id0) mid) [ex] := by
      rw [← hdocs]
      exact hf.symm
    rw [show ([ex] : List Doc) = ex :: [] from rfl] at hf'
    exact List.perm_nil.mp hf'.cons_inv
  have hdelSelf : entriesFor (deleteItemFromObject s.index id0) id0 = [] := by
    rw [entriesFor_deleteItemFromObject_self, hentEx]
    rfl
  have hmid_noid : ∀ x ∈ mid, docHasId x id0 = false := by
    intro x hx
    exact Bool.of_not_eq_true (List.filter_eq_nil_iff.mp hmidnil x hx)
  constructor
  · intro x hx
    have hx' : x ∈ mid := hpermNew.mem_iff.mp hx
    have hxold : x ∈ allDocs s.root :=
      hpermOld.mem_iff.mpr (List.mem_cons_of_mem _ hx')
    obtain ⟨idx, hidx, hentx⟩ := h1 x hxold
    have hne : idx ≠ id0 := by
      intro e
      subst e
      have := hmid_noid x hx'
      rw [(docHasId_iff ..).mpr hidx] at this
      exact absurd this (by simp)
    exact ⟨idx, hidx, by rw [entriesFor_deleteItemFromObject_other _ hne, hentx]⟩
  · intro p hp
    have hpidx : p ∈ s.index := mem_deleteItemFromObject hp
    have hne : p.1 ≠ id0 := by
      intro e
      have hmem : p ∈ entriesFor (deleteItemFromObject s.index id0) id0 :=
        List.mem_filter.mpr ⟨hp, by simp [e]⟩
      rw [hdelSelf] at hmem
      exact absurd hmem (List.not_mem_nil p)
    have hres := h2 p hpidx
    have hfNew := hpermNew.filter (fun x => docHasId x p.1)
    have hfOld := hpermOld.filter (fun x => docHasId x p.1)
    rw [List.filter_cons, docHasId_false_of_ne hex (fun e => hne e.symm)] at hfOld
    simp only [Bool.false_eq_true, if_false] at hfOld
    exact eq_singleton_of_perm (hfOld.trans hfNew.symm) hres

/-! ## The mutating operations as one step relation -/

/-- One mutating operation of the coordinator, as named by the spec:
insert, update, delete and dropAll. -/
inductive Op : Type where
  | insert (coll : String) (data : Doc) (genId : String)
  | update (coll : String) (id : String) (data : Doc)
  | delete (coll : String) (id : String)
  | dropAll

/-- Run one mutating operation; the boolean is the success result reported
to the caller (db_drop_all returns no value and always succeeds). -/
def applyOp (s : DB) (o : Op) (writeOk : Bool) : DB × Bool :=
  match o with
  | Op.insert c d g =>
    let r := db_insert s c (some d) g writeOk
    (r.1, r.2.2)
  | Op.update c i d => db_update s c i (some d) writeOk
  | Op.delete c i => db_delete s c i writeOk
  | Op.dropAll => (db_drop_all s writeOk, true)

/-- Operation precondition reflecting the data model of the spec: the
document reaching the store through an insert carries a string identifier
(either its own _id string field or the generated one) that is fresh for the
whole store; identifiers are globally unique by the data model and generated
ones collide only with negligible probability, collision handling being out
of scope.  The other operations need no precondition. -/
def opPre (s : DB) (o : Op) : Prop :=
  match o with
  | Op.insert _ d g =>
      ∃ idv, docId (ensureId d g) = some idv ∧ getObjectItem s.index idv = none
  | _ => True

/-- C2: after every successful mutating operation (insert, update, delete,
dropAll) run from a consistent state, the store and the identifier index
are consistent again: every live document has exactly one index entry under
its identifier with equal content, and every index entry points back to
exactly one live document with equal content. -/
theorem mutation_preserves_index_invariant (s : DB) (o : Op) (w : Bool)
    (hinv : dbInv s) (hpre : opPre s o) (hok : (applyOp s o w).2 = true) :
    dbInv (applyOp s o w).1 := by
  cases o with
  | insert c d g =>
    obtain ⟨idv, hid, hfresh⟩ := hpre
    have hid' : getObjectItem (ensureId d g) "_id" = some (JVal.jstr idv) :=
      (docId_some_iff _ _).mp hid
    cases hroot : getObjectItem s.root c with
    | some docs =>
      have happ : (applyOp s (Op.insert c d g) w).1 =
          saveInternal w { s with root := setColl s.root c (docs ++ [ensureId d g]),
                                  index := s.index ++ [(idv, ensureId d g)] } := by
        show (db_insert s c (some d) g w).1 = _
        simp only [db_insert, hid', hroot]
      rw [happ, dbInv_saveInternal]
      show storeIndexInv (setColl s.root c (docs ++ [ensureId d g]))
        (s.index ++ [(idv, ensureId d g)])
      obtain ⟨l, hl1, hl2⟩ := allDocs_setColl s.root c docs hroot
      have hstep : List.Perm ((docs ++ [ensureId d g]) ++ l)
          (ensureId d g :: (docs ++ l)) := by
        rw [List.append_assoc]
        exact List.perm_middle
      have hperm : List.Perm (allDocs (setColl s.root c (docs ++ [ensureId d g])))
          (ensureId d g :: allDocs s.root) :=
        (hl2 _).trans (hstep.trans (hl1.symm.cons _))
      exact storeIndexInv_insert hinv hid hfresh hperm
    | none =>
      have happ : (applyOp s (Op.insert c d g) w).1 =
          saveInternal w { s with root := s.root ++ [(c, [ensureId d g])],
                                  index := s.index ++ [(idv, ensureId d g)] } := by
        show (db_insert s c (some d) g w).1 = _
        simp only [db_insert, hid', hroot]
      rw [happ, dbInv_saveInternal]
      show storeIndexInv (s.root ++ [(c, [ensureId d g])])
        (s.index ++ [(idv, ensureId d g)])
      have hperm : List.Perm (allDocs (s.root ++ [(c, [ensureId d g])]))
          (ensureId d g :: allDocs s.root) := by
        rw [allDocs_append]
        exact List.perm_append_singleton ..
      exact storeIndexInv_insert hinv hid hfresh hperm
  | update c i dd =>
    cases hroot : getObjectItem s.root c with
    | none =>
      exfalso
      have hfail : (applyOp s (Op.update c i dd) w).2 = false := by
        show (db_update s c i (some dd) w).2 = false
        simp only [db_update, hroot]
      rw [hfail] at hok
      exact Bool.false_ne_true hok
    | some docs =>
      cases hsplit : splitFirst (fun x => docHasId x i) docs with
      | none =>
        exfalso
        have hfail : (applyOp s (Op.update c i dd) w).2 = false := by
          show (db_update s c i (some dd) w).2 = false
          simp only [db_update, hroot, hsplit]
        rw [hfail] at hok
        exact Bool.false_ne_true hok
      | some t =>
        obtain ⟨pre, ex, post⟩ := t
        obtain ⟨hdocs, hpx, hpre2⟩ := splitFirst_eq_some hsplit
        subst hdocs
        have hex : docId ex = some i := (docHasId_iff ..).mp hpx
        have hnew : docId (mergeFields ex dd) = some i := by
          rw [docId_mergeFields]; exact hex
        have happ : (applyOp s (Op.update c i dd) w).1 =
            saveInternal w { s with
              root := setColl s.root c ((pre ++ post) ++ [mergeFields ex dd]),
              index := deleteItemFromObject s.index i ++ [(i, mergeFields ex dd)] } := by
          show (db_update s c i (some dd) w).1 = _
          simp only [db_update, hroot, hsplit]
        rw [happ, dbInv_saveInternal]
        show storeIndexInv (setColl s.root c ((pre ++ post) ++ [mergeFields ex dd]))
          (deleteItemFromObject s.index i ++ [(i, mergeFields ex dd)])
        obtain ⟨l, hl1, hl2⟩ := allDocs_setColl s.root c _ hroot
        have hOld : List.Perm (allDocs s.root) (ex :: (pre ++ (post ++ l))) := by
          refine hl1.trans ?_
          rw [List.append_assoc]
          exact List.perm_middle
        have hNew : List.Perm
            (allDocs (setColl s.root c ((pre ++ post) ++ [mergeFields ex dd])))
            (mergeFields ex dd :: (pre ++ (post ++ l))) := by
          refine (hl2 _).trans ?_
          rw [List.append_assoc]
          refine List.perm_middle.trans ?_
          rw [List.append_assoc]
          exact List.Perm.refl _
        exact storeIndexInv_update hinv hex hnew hOld hNew
  | delete c i =>
    cases hroot : getObjectItem s.root c with
    | none =>
      exfalso
      have hfail : (applyOp s (Op.delete c i) w).2 = false := by
        show (db_delete s c i w).2 = false
        simp only [db_delete, hroot]
      rw [hfail] at hok
      exact Bool.false_ne_true hok
    | some docs =>
      cases hsplit : splitFirst (fun x => docHasId x i) docs with
      | none =>
        exfalso
        have hfail : (applyOp s (Op.delete c i) w).2 = false := by
          show (db_delete s c i w).2 = false
          simp only [db_delete, hroot, hsplit]
        rw [hfail] at hok
        exact Bool.false_ne_true hok
      | some t =>
        obtain ⟨pre, ex, post⟩ := t
        obtain ⟨hdocs, hpx, hpre2⟩ := splitFirst_eq_some hsplit
        subst hdocs
        have hex : docId ex = some i := (docHasId_iff ..).mp hpx
        have happ : (applyOp s (Op.delete c i) w).1 =
            saveInternal w { s with
              root := setColl s.root c (pre ++ post),
              index := deleteItemFromObject s.index i } := by
          show (db_delete s c i w).1 = _
          simp only [db_delete, hroot, hsplit]
        rw [happ, dbInv_saveInternal]
        show storeIndexInv (setColl s.root c (pre ++ post))
          (deleteItemFromObject s.index i)
        obtain ⟨l, hl1, hl2⟩ := allDocs_setColl s.root c _ hroot
        have hOld : List.Perm (allDocs s.root) (ex :: (pre ++ (post ++ l))) := by
          refine hl1.trans ?_
          rw [List.append_assoc]
          exact List.perm_middle
        have hNew : List.Perm (allDocs (setColl s.root c (pre ++ post)))
            (pre ++ (post ++ l)) := by
          refine (hl2 _).trans ?_
          rw [List.append_assoc]
        exact storeIndexInv_delete hinv hex hOld hNew
  | dropAll =>
    show dbInv (db_drop_all s w)
    have : db_drop_all s w = saveInternal w { s with root := [], index := [] } := rfl
    rw [this, dbInv_saveInternal]
    exact ⟨fun d hd => absurd hd (List.not_mem_nil d),
      fun p hp => absurd hp (List.not_mem_nil p)⟩

/-- The state right after db_init on a missing or empty durable file. -/
def emptyDB : DB := ⟨[], [], [], 0, 0, false⟩

theorem mutation_preserves_index_invariant_witness :
    dbInv (applyOp emptyDB (Op.insert "users" [("score", JVal.jnum 100)]
      "a0b1c2d3e4f5g6h7") true).1 :=
  mutation_preserves_index_invariant emptyDB
    (Op.insert "users" [("score", JVal.jnum 100)] "a0b1c2d3e4f5g6h7") true
    ⟨fun d hd => absurd hd (List.not_mem_nil d),
      fun p hp => absurd hp (List.not_mem_nil p)⟩
    ⟨"a0b1c2d3e4f5g6h7", rfl, rfl⟩
    rfl

/-! ## Round trip insert then find -/

/-- C3: inserting a document D into collection C succeeds, the caller
visible document is D extended with its assigned identifier (ensureId), and
a subsequent find on C with the single field filter on that identifier and
limit 0 returns exactly that one document.  The identifier must be fresh
for the index, as guaranteed by the global uniqueness of identifiers. -/
theorem insert_find_roundtrip (s : DB) (c : String) (d : Doc) (g : String) (w : Bool)
    (idv : String)
    (hid : docId (ensureId d g) = some idv)
    (hfresh : getObjectItem s.index idv = none) :
    (db_insert s c (some d) g w).2.2 = true ∧
    (db_insert s c (some d) g w).2.1 = some (ensureId d g) ∧
    db_find (db_insert s c (some d) g w).1 c
      (some [("_id", JVal.jstr idv)]) 0 = [ensureId d g] := by
  have hid' : getObjectItem (ensureId d g) "_id" = some (JVal.jstr idv) :=
    (docId_some_iff _ _).mp hid
  have hindex : (db_insert s c (some d) g w).1.index =
      s.index ++ [(idv, ensureId d g)] := by
    cases hroot : getObjectItem s.root c with
    | some docs => simp only [db_insert, hid', hroot, saveInternal_index]
    | none => simp only [db_insert, hid', hroot, saveInternal_index]
  refine ⟨rfl, rfl, ?_⟩
  have h1 : getObjectItem [("_id", JVal.jstr idv)] "_id" = some (JVal.jstr idv) := by
    rw [getObjectItem_cons, if_pos rfl]
  have h2 : getObjectItem (db_insert s c (some d) g w).1.index idv =
      some (ensureId d g) := by
    rw [hindex, getObjectItem_append_of_none _ hfresh, getObjectItem_cons, if_pos rfl]
  unfold db_find fastFind
  simp only [h1, h2]

theorem insert_find_roundtrip_witness :
    db_find (db_insert emptyDB "users" (some [("u", JVal.jstr "bot")])
        "deadbeefdeadbeef" true).1
      "users" (some [("_id", JVal.jstr "deadbeefdeadbeef")]) 0 =
      [[("u", JVal.jstr "bot"), ("_id", JVal.jstr "deadbeefdeadbeef")]] :=
  (insert_find_roundtrip emptyDB "users" [("u", JVal.jstr "bot")]
    "deadbeefdeadbeef" true "deadbeefdeadbeef" rfl rfl).2.2

/-! ## Selective merge semantics of update -/

/-- C4: a successful update replaces the first document of the collection
carrying the identifier by a merge of the payload into a copy of it,
appended at the end of the collection: payload fields named _id are ignored
(the stored identifier survives any _id value in the payload), other
mentioned fields take the payload value, and unmentioned fields keep their
old value.  The payload is assumed not to name the same field twice, as a
JSON object. -/
theorem update_selective_merge (s : DB) (c id : String) (d : Doc) (w : Bool)
    (hnodup : (d.map Prod.fst).Nodup)
    (hok : (db_update s c id (some d) w).2 = true) :
    ∃ pre ex post,
      getObjectItem s.root c = some (pre ++ ex :: post) ∧
      docHasId ex id = true ∧ (∀ y ∈ pre, docHasId y id = false) ∧
      (db_update s c id (some d) w).1.root =
        setColl s.root c ((pre ++ post) ++ [mergeFields ex d]) ∧
      getObjectItem (mergeFields ex d) "_id" = getObjectItem ex "_id" ∧
      (∀ k v, k ≠ "_id" → getObjectItem d k = some v →
        getObjectItem (mergeFields ex d) k = some v) ∧
      (∀ k, k ≠ "_id" → getObjectItem d k = none →
        getObjectItem (mergeFields ex d) k = getObjectItem ex k) := by
  cases hroot : getObjectItem s.root c with
  | none =>
    exfalso
    have hfail : (db_update s c id (some d) w).2 = false := by
      simp only [db_update, hroot]
    rw [hfail] at hok
    exact Bool.false_ne_true hok
  | some docs =>
    cases hsplit : splitFirst (fun x => docHasId x id) docs with
    | none =>
      exfalso
      have hfail : (db_update s c id (some d) w).2 = false := by
        simp only [db_update, hroot, hsplit]
      rw [hfail] at hok
      exact Bool.false_ne_true hok
    | some t =>
      obtain ⟨pre, ex, post⟩ := t
      obtain ⟨hdocs, hpx, hpre⟩ := splitFirst_eq_some hsplit
      subst hdocs
      refine ⟨pre, ex, post, rfl, hpx, hpre, ?_, ?_, ?_, ?_⟩
      · simp only [db_update, hroot, hsplit, saveInternal_root]
      · exact mergeFields_lookup_preserved d ex (Or.inl rfl)
      · intro k v hk hv
        exact mergeFields_lookup_payload d ex hk hnodup hv
      · intro k hk hv
        exact mergeFields_lookup_preserved d ex (Or.inr hv)

/-- The reachable state holding one document with fields a = 1, b = 2 under
a known identifier, used to exercise the selective merge. -/
def sMerge : DB :=
  (db_insert emptyDB "users" (some [("a", JVal.jnum 1), ("b", JVal.jnum 2)])
    "abcdabcdabcdabcd" true).1

theorem update_selective_merge_witness :
    ∃ pre ex post,
      getObjectItem sMerge.root "users" = some (pre ++ ex :: post) ∧
      docHasId ex "abcdabcdabcdabcd" = true ∧
      (∀ y ∈ pre, docHasId y "abcdabcdabcdabcd" = false) ∧
      (db_update sMerge "users" "abcdabcdabcdabcd"
        (some [("b", JVal.jnum 3), ("c", JVal.jnum 4), ("_id", JVal.jstr "HACKED")])
        true).1.root =
        setColl sMerge.root "users" ((pre ++ post) ++
          [mergeFields ex
            [("b", JVal.jnum 3), ("c", JVal.jnum 4), ("_id", JVal.jstr "HACKED")]]) ∧
      getObjectItem (mergeFields ex
          [("b", JVal.jnum 3), ("c", JVal.jnum 4), ("_id", JVal.jstr "HACKED")]) "_id" =
        getObjectItem ex "_id" ∧
      (∀ k v, k ≠ "_id" →
        getObjectItem
          [("b", JVal.jnum 3), ("c", JVal.jnum 4), ("_id", JVal.jstr "HACKED")] k =
          some v →
        getObjectItem (mergeFields ex
          [("b", JVal.jnum 3), ("c", JVal.jnum 4), ("_id", JVal.jstr "HACKED")]) k =
          some v) ∧
      (∀ k, k ≠ "_id" →
        getObjectItem
          [("b", JVal.jnum 3), ("c", JVal.jnum 4), ("_id", JVal.jstr "HACKED")] k =
          none →
        getObjectItem (mergeFields ex
          [("b", JVal.jnum 3), ("c", JVal.jnum 4), ("_id", JVal.jstr "HACKED")]) k =
          getObjectItem ex k) :=
  update_selective_merge sMerge "users" "abcdabcdabcdabcd"
    [("b", JVal.jnum 3), ("c", JVal.jnum 4), ("_id", JVal.jstr "HACKED")] true
    (by decide) rfl

/-! ## Delete semantics -/

/-- C7: delete removes the first document of the named collection whose
identifier matches, removes the index entry for that identifier, persists
(the durable file holds the new store when the write succeeds) and returns
true; when no document matches, it returns false and the whole state — the
store, the index and the durable file — is unchanged. -/
theorem delete_semantics (s : DB) (c id : String) (w : Bool) :
    ((db_delete s c id w).2 = false → (db_delete s c id w).1 = s) ∧
    ((db_delete s c id w).2 = true →
      ∃ pre ex post,
        getObjectItem s.root c = some (pre ++ ex :: post) ∧
        docHasId ex id = true ∧ (∀ y ∈ pre, docHasId y id = false) ∧
        (db_delete s c id w).1.root = setColl s.root c (pre ++ post) ∧
        (db_delete s c id w).1.index = deleteItemFromObject s.index id ∧
        (w = true → (db_delete s c id w).1.file = setColl s.root c (pre ++ post)) ∧
        (w = false → (db_delete s c id w).1.file = s.file)) := by
  cases hroot : getObjectItem s.root c with
  | none =>
    constructor
    · intro _
      simp only [db_delete, hroot]
    · intro h
      exfalso
      have hfail : (db_delete s c id w).2 = false := by
        simp only [db_delete, hroot]
      rw [hfail] at h
      exact Bool.false_ne_true h
  | some docs =>
    cases hsplit : splitFirst (fun x => docHasId x id) docs with
    | none =>
      constructor
      · intro _
        simp only [db_delete, hroot, hsplit]
      · intro h
        exfalso
        have hfail : (db_delete s c id w).2 = false := by
          simp only [db_delete, hroot, hsplit]
        rw [hfail] at h
        exact Bool.false_ne_true h
    | some t =>
      obtain ⟨pre, ex, post⟩ := t
      obtain ⟨hdocs, hpx, hpre⟩ := splitFirst_eq_some hsplit
      subst hdocs
      constructor
      · intro h
        exfalso
        have hok : (db_delete s c id w).2 = true := by
          simp only [db_delete, hroot, hsplit]
        rw [hok] at h
        exact absurd h (by simp)
      · intro _
        refine ⟨pre, ex, post, rfl, hpx, hpre, ?_, ?_, ?_, ?_⟩
        · simp only [db_delete, hroot, hsplit, saveInternal_root]
        · simp only [db_delete, hroot, hsplit, saveInternal_index]
        · intro hw
          subst hw
          simp only [db_delete, hroot, hsplit, saveInternal_file_true]
        · intro hw
          subst hw
          simp only [db_delete, hroot, hsplit, saveInternal_false]

/-- A reachable state holding one document in users, used to exercise
delete. -/
def sDel : DB :=
  (db_insert emptyDB "users" (some [("u", JVal.jnum 1)]) "cafecafecafecafe" true).1

theorem delete_semantics_witness :
    (db_delete sDel "users" "zz" true).1 = sDel :=
  (delete_semantics sDel "users" "zz" true).1 rfl

/-! ## Limit semantics of the scan, and the fast path -/

theorem scanDocs_nil (q : Option Doc) (limit count : Int) :
    scanDocs q limit [] count = [] := rfl

theorem scanDocs_cons (q : Option Doc) (limit : Int) (d : Doc) (rest : List Doc)
    (count : Int) :
    scanDocs q limit (d :: rest) count =
      if limit > 0 ∧ count ≥ limit then []
      else if query_match (some d) q then d :: scanDocs q limit rest (count + 1)
      else scanDocs q limit rest count := rfl

theorem scanDocs_nonpos (q : Option Doc) {limit : Int} (hn : limit ≤ 0)
    (docs : List Doc) (count : Int) :
    scanDocs q limit docs count = docs.filter fun x => query_match (some x) q := by
  induction docs generalizing count with
  | nil => rfl
  | cons d rest ih =>
    rw [scanDocs_cons, if_neg (fun hh => absurd hh.1 (by omega))]
    by_cases hm : query_match (some d) q = true
    · rw [if_pos hm]
      simp only [List.filter_cons, hm, if_true]
      rw [ih]
    · have hm' : query_match (some d) q = false := Bool.of_not_eq_true hm
      rw [if_neg hm]
      simp only [List.filter_cons, hm', Bool.false_eq_true, if_false]
      exact ih count

theorem scanDocs_pos (q : Option Doc) {limit : Int} (hpos : 0 < limit)
    (docs : List Doc) :
    ∀ count : Int,
    scanDocs q limit docs count =
      (docs.filter fun x => query_match (some x) q).take (limit - count).toNat := by
  induction docs with
  | nil => intro count; simp [scanDocs_nil]
  | cons d rest ih =>
    intro count
    rw [scanDocs_cons]
    by_cases hstop : count ≥ limit
    · rw [if_pos ⟨hpos, hstop⟩]
      have h0 : (limit - count).toNat = 0 := by omega
      rw [h0, List.take_zero]
    · rw [if_neg (fun hh => hstop hh.2)]
      by_cases hm : query_match (some d) q = true
      · rw [if_pos hm]
        have hsucc : (limit - count).toNat = (limit - (count + 1)).toNat + 1 := by omega
        simp only [List.filter_cons, hm, if_true]
        rw [hsucc, List.take_succ_cons, ih (count + 1)]
      · have hm' : query_match (some d) q = false := Bool.of_not_eq_true hm
        rw [if_neg hm]
        simp only [List.filter_cons, hm', Bool.false_eq_true, if_false]
        exact ih count

/-- The documents of collection c matching the filter, in scan order: the
ordered result the spec promises for find. -/
def matchingDocs (s : DB) (c : String) (q : Option Doc) : List Doc :=
  match getObjectItem s.root c with
  | some docs => docs.filter fun x => query_match (some x) q
  | none => []

/-- C6 as amended: whenever the result is served by the linear scan — the
index fast path produced nothing, in particular whenever the filter holds no
string valued _id field — find with a positive limit returns the first n
matching documents in scan order, and with limit at most 0 returns all
matching documents in scan order. -/
theorem find_limit_slowpath (s : DB) (c : String) (q : Option Doc) (n : Int)
    (hslow : fastFind s q = none) :
    db_find s c q n =
      if 0 < n then (matchingDocs s c q).take n.toNat else matchingDocs s c q := by
  have hdf : db_find s c q n = db_find_slow s c q n := by
    unfold db_find
    rw [hslow]
  rw [hdf]
  cases hroot : getObjectItem s.root c with
  | none =>
    have e1 : db_find_slow s c q n = [] := by
      unfold db_find_slow
      rw [hroot]
    have e2 : matchingDocs s c q = [] := by
      unfold matchingDocs
      rw [hroot]
    rw [e1, e2]
    by_cases h : 0 < n <;> simp [h]
  | some docs =>
    have e1 : db_find_slow s c q n = scanDocs q n docs 0 := by
      unfold db_find_slow
      rw [hroot]
    have e2 : matchingDocs s c q = docs.filter fun x => query_match (some x) q := by
      unfold matchingDocs
      rw [hroot]
    rw [e1, e2]
    by_cases h : 0 < n
    · rw [if_pos h, scanDocs_pos q h docs 0, sub_zero]
    · rw [if_neg h, scanDocs_nonpos q (by omega) docs 0]

/-- The reachable state with one document in collection A and an index entry
for it; collection B does not mention the document. -/
def sCross : DB :=
  (db_insert emptyDB "A" (some [("v", JVal.jnum 1)]) "ffffffffffffffff" true).1

theorem find_limit_fastpath_counterexample :
    db_find sCross "B" (some [("_id", JVal.jstr "ffffffffffffffff")]) 0 ≠
      matchingDocs sCross "B" (some [("_id", JVal.jstr "ffffffffffffffff")]) :=
  fun h => absurd (congrArg List.length h) (by decide)

/-- The state with four documents in one collection, three of them matching
the filter t = 1, used to exercise the limit semantics. -/
def sLimit : DB :=
  ⟨[("C", [[("t", JVal.jnum 1)], [("t", JVal.jnum 2)], [("t", JVal.jnum 1)],
    [("t", JVal.jnum 1)]])], [], [], 0, 0, false⟩

theorem find_limit_slowpath_witness :
    db_find sLimit "C" (some [("t", JVal.jnum 1)]) 2 =
      (if (0 : Int) < 2 then
        (matchingDocs sLimit "C" (some [("t", JVal.jnum 1)])).take (2 : Int).toNat
      else matchingDocs sLimit "C" (some [("t", JVal.jnum 1)])) :=
  find_limit_slowpath sLimit "C" (some [("t", JVal.jnum 1)]) 2 rfl

/-- C1: on the concrete reachable state sCross, the filter is exactly the
single field equality on the identifier field, the find is served from the
index fast path, and the fast path result differs from the slow path linear
scan of the queried collection B: the fast path returns the document living
in collection A, the scan of B returns nothing.  db_find ignores the
collection argument on its fast path. -/
theorem find_fastpath_cross_collection :
    fastFind sCross (some [("_id", JVal.jstr "ffffffffffffffff")]) =
      some [[("v", JVal.jnum 1), ("_id", JVal.jstr "ffffffffffffffff")]] ∧
    db_find sCross "B" (some [("_id", JVal.jstr "ffffffffffffffff")]) 0 =
      [[("v", JVal.jnum 1), ("_id", JVal.jstr "ffffffffffffffff")]] ∧
    db_find_slow sCross "B" (some [("_id", JVal.jstr "ffffffffffffffff")]) 0 = [] :=
  ⟨rfl, rfl, rfl⟩

/-! ## The flush counter and automatic snapshots -/

/-- k successive successful flushes. -/
def saveIter : Nat → DB → DB
  | 0, s => s
  | k + 1, s => saveIter k (saveInternal true s)

theorem saveInternal_true_eq (s : DB) (ht : s.testMode = false) :
    saveInternal true s =
      if s.opCounter + 1 ≥ 5 then
        { s with file := s.root, opCounter := 0, snapshots := s.snapshots + 1 }
      else { s with file := s.root, opCounter := s.opCounter + 1 } := by
  show (if ({ s with file := s.root } : DB).testMode then _ else _ : DB) = _
  rw [show ({ s with file := s.root } : DB).testMode = false from ht, if_neg (by simp)]

theorem saveInternal_true_testMode_on (s : DB) (ht : s.testMode = true) :
    saveInternal true s = { s with file := s.root } := by
  show (if ({ s with file := s.root } : DB).testMode then _ else _ : DB) = _
  rw [show ({ s with file := s.root } : DB).testMode = true from ht, if_pos rfl]

/-- C8: with test mode off and the counter in its reachable range, after k
successful flushes the counter equals its start plus k modulo 5 (hence it
never exceeds 5) and exactly one snapshot has been taken per five flushes;
one single successful flush takes a snapshot exactly when it is the fifth
one since the last reset (counter 4), and then resets the counter to zero.
With test mode on, no flush ever takes a snapshot or moves the counter, and
a failed write changes nothing at all. -/
theorem autosnapshot_every_fifth_flush :
    (∀ s : DB, s.testMode = false → s.opCounter < 5 → ∀ k : Nat,
      (saveIter k s).opCounter = (s.opCounter + k) % 5 ∧
      (saveIter k s).opCounter < 5 ∧
      (saveIter k s).snapshots = s.snapshots + (s.opCounter + k) / 5) ∧
    (∀ s : DB, s.testMode = false → s.opCounter < 5 →
      ((saveInternal true s).snapshots = s.snapshots + 1 ↔ s.opCounter = 4) ∧
      (s.opCounter = 4 → (saveInternal true s).opCounter = 0)) ∧
    (∀ (s : DB) (k : Nat), s.testMode = true →
      (saveIter k s).snapshots = s.snapshots ∧
      (saveIter k s).opCounter = s.opCounter) ∧
    (∀ s : DB, saveInternal false s = s) := by
  have main : ∀ (k : Nat) (s : DB), s.testMode = false → s.opCounter < 5 →
      (saveIter k s).opCounter = (s.opCounter + k) % 5 ∧
      (saveIter k s).snapshots = s.snapshots + (s.opCounter + k) / 5 := by
    intro k
    induction k with
    | zero =>
      intro s ht hc
      constructor
      · show s.opCounter = (s.opCounter + 0) % 5
        omega
      · show s.snapshots = s.snapshots + (s.opCounter + 0) / 5
        omega
    | succ k ih =>
      intro s ht hc
      show (saveIter k (saveInternal true s)).opCounter = _ ∧
        (saveIter k (saveInternal true s)).snapshots = _
      rw [saveInternal_true_eq s ht]
      by_cases h5 : s.opCounter + 1 ≥ 5
      · rw [if_pos h5]
        obtain ⟨h1, h2⟩ := ih
          { s with file := s.root, opCounter := 0, snapshots := s.snapshots + 1 }
          ht (by show (0 : Nat) < 5; omega)
        rw [h1, h2]
        constructor
        · show (0 + k) % 5 = (s.opCounter + (k + 1)) % 5
          omega
        · show s.snapshots + 1 + (0 + k) / 5 = s.snapshots + (s.opCounter + (k + 1)) / 5
          omega
      · rw [if_neg h5]
        obtain ⟨h1, h2⟩ := ih { s with file := s.root, opCounter := s.opCounter + 1 }
          ht (by show s.opCounter + 1 < 5; omega)
        rw [h1, h2]
        constructor
        · show (s.opCounter + 1 + k) % 5 = (s.opCounter + (k + 1)) % 5
          omega
        · show s.snapshots + (s.opCounter + 1 + k) / 5 =
            s.snapshots + (s.opCounter + (k + 1)) / 5
          omega
  have tm : ∀ (k : Nat) (s : DB), s.testMode = true →
      (saveIter k s).snapshots = s.snapshots ∧
      (saveIter k s).opCounter = s.opCounter := by
    intro k
    induction k with
    | zero => intro s ht; exact ⟨rfl, rfl⟩
    | succ k ih =>
      intro s ht
      show (saveIter k (saveInternal true s)).snapshots = _ ∧
        (saveIter k (saveInternal true s)).opCounter = _
      rw [saveInternal_true_testMode_on s ht]
      exact ih { s with file := s.root } ht
  refine ⟨?_, ?_, fun s k ht => tm k s ht, fun s => rfl⟩
  · intro s ht hc k
    obtain ⟨h1, h2⟩ := main k s ht hc
    exact ⟨h1, by rw [h1]; omega, h2⟩
  · intro s ht hc
    rw [saveInternal_true_eq s ht]
    by_cases h5 : s.opCounter + 1 ≥ 5
    · rw [if_pos h5]
      refine ⟨⟨fun _ => by omega, fun _ => rfl⟩, fun _ => rfl⟩
    · rw [if_neg h5]
      constructor
      · constructor
        · intro hsnap
          have hsnap' : s.snapshots = s.snapshots + 1 := hsnap
          omega
        · intro h4
          exfalso
          omega
      · intro h4
        exfalso
        omega

theorem autosnapshot_every_fifth_flush_witness :
    (saveIter 7 emptyDB).opCounter = (emptyDB.opCounter + 7) % 5 ∧
    (saveIter 7 emptyDB).opCounter < 5 ∧
    (saveIter 7 emptyDB).snapshots = emptyDB.snapshots + (emptyDB.opCounter + 7) / 5 :=
  autosnapshot_every_fifth_flush.1 emptyDB rfl (by decide) 7

/-! ## The in place identifier assignment of insert -/

/-- C9: when the input document has no _id field, insert stores the
generated sixteen character identifier into the caller supplied document
(db_insert in C mutates the input object in place; the model returns the
caller visible document as the second component), returns only the boolean
true, and the identifier has length 16. -/
theorem insert_mutates_caller_document (s : DB) (c : String) (d : Doc)
    (r : Nat → Nat) (w : Bool) (h : getObjectItem d "_id" = none) :
    (db_insert s c (some d) (utils_gen_uuid r) w).2.1 =
      some (d ++ [("_id", JVal.jstr (utils_gen_uuid r))]) ∧
    (db_insert s c (some d) (utils_gen_uuid r) w).2.2 = true ∧
    (utils_gen_uuid r).length = 16 := by
  have he : ensureId d (utils_gen_uuid r) =
      d ++ [("_id", JVal.jstr (utils_gen_uuid r))] := by
    unfold ensureId hasObjectItem
    rw [h]
    rfl
  refine ⟨?_, rfl, ?_⟩
  · show some (ensureId d (utils_gen_uuid r)) = _
    rw [he]
  · show (String.mk ((List.range 16).map _)).length = 16
    have hl : ∀ l : List Char, (String.mk l).length = l.length := fun l => rfl
    rw [hl, List.length_map, List.length_range]

theorem insert_mutates_caller_document_witness :
    (db_insert emptyDB "users" (some [("u", JVal.jnum 1)])
        (utils_gen_uuid fun _ => 0) true).2.1 =
      some ([("u", JVal.jnum 1)] ++
        [("_id", JVal.jstr (utils_gen_uuid fun _ => 0))]) ∧
    (db_insert emptyDB "users" (some [("u", JVal.jnum 1)])
        (utils_gen_uuid fun _ => 0) true).2.2 = true ∧
    (utils_gen_uuid fun _ => 0).length = 16 :=
  insert_mutates_caller_document emptyDB "users" [("u", JVal.jnum 1)]
    (fun _ => 0) true rfl

end XDB
